import Mathlib

set_option maxHeartbeats 1000000

/-!
Shallow embedding of `src/trustwise/callback.py` (`TrustwiseCallbackHandler`):
the event-correlation engine — event records, the three index views kept by the
handler, the pairing algorithm, the timing statistics, the recursive trace-map
renderer, and the session-identifier generator.

Python `dict` / `collections.defaultdict(list)` values are embedded as
association lists `List (String × List α)` in key-insertion order, which is the
iteration order of a Python dict.  Mutating methods are embedded as functions
returning the new state; Python exceptions are embedded with `Except`.
-/

deriving instance DecidableEq for Except

/-- An event record (llama_index `CBEvent`, constructed by `on_event_start` /
`on_event_end`): event type, opaque payload, caller-supplied id, and the
capture timestamp rendered as a string in the fixed sortable format. -/
structure CBEvent where
  eventType : String
  payload : Option String
  id_ : String
  time : String
deriving DecidableEq

/-- Python runtime errors the embedded code can raise. -/
inductive PyErr
  | valueError
  | indexError
  | zeroDivisionError
deriving DecidableEq

/-- Modelled from the spec: `datetime.strptime(_, TIMESTAMP_FORMAT)` — the
timestamp format and its parser live in llama_index / the standard library,
not under `src/`.  The spec requires only a fixed sortable string format that
parses back to a comparable instant (`%f` gives microsecond resolution), with
malformed strings failing to parse.  We model a timestamp string as a plain
decimal digit string denoting microseconds since the epoch; any other string
is malformed and fails to parse. -/
def strptime (s : String) : Option Nat :=
  if s.data ≠ [] ∧ s.data.all Char.isDigit then
    some (s.data.foldl (fun a c => 10 * a + (c.toNat - 48)) 0)
  else none

/-- Reading `m[k]` from a `defaultdict(list)` without storing the default:
the bucket for `k`, or `[]` when `k` is absent. -/
def lookupD {α : Type} (m : List (String × List α)) (k : String) : List α :=
  match m with
  | [] => []
  | (k', vs) :: rest => if k = k' then vs else lookupD rest k

/-- `m[k].append(v)` on a `defaultdict(list)`: append `v` to the bucket of
`k`, creating the bucket (at the end, in dict insertion order) if absent. -/
def appendTo {α : Type} (m : List (String × List α)) (k : String) (v : α) :
    List (String × List α) :=
  match m with
  | [] => [(k, [v])]
  | (k', vs) :: rest =>
    if k = k' then (k', vs ++ [v]) :: rest
    else (k', vs) :: appendTo rest k v

/-- `defaultdict.__getitem__`: returns the bucket for `k` and the (possibly
updated) dictionary — looking up a missing key stores a fresh empty bucket. -/
def dgetD {α : Type} (m : List (String × List α)) (k : String) :
    List α × List (String × List α) :=
  match m with
  | [] => ([], [(k, [])])
  | (k', vs) :: rest =>
    if k = k' then (vs, (k', vs) :: rest)
    else
      let r := dgetD rest k
      (r.1, (k', vs) :: r.2)

/-- The handler's mutable state: the three index views over the event stream
(`_event_pairs_by_type`, `_event_pairs_by_id`, `_sequential_events`), the
current trace map and trace id. -/
structure HState where
  byType : List (String × List CBEvent)
  byId : List (String × List CBEvent)
  seq : List CBEvent
  traceMap : List (String × List String)
  curTraceId : Option String
deriving DecidableEq

/-- The state installed by `__init__`: all views empty. -/
def initState : HState :=
  { byType := [], byId := [], seq := [], traceMap := [], curTraceId := none }

/-- `on_event_start`: build the event record and append it to the by-type
bucket, the by-id bucket and the sequential log.  The `log_to_mongodb` call
swallows every exception and does not touch this state. -/
def on_event_start (s : HState) (event : CBEvent) : HState :=
  { s with
      byType := appendTo s.byType event.eventType event
      byId := appendTo s.byId event.id_ event
      seq := s.seq ++ [event] }

/-- `on_event_end`: identical insertion into the three views, then
`self._trace_map = defaultdict(list)` resets the trace map to empty. -/
def on_event_end (s : HState) (event : CBEvent) : HState :=
  { s with
      byType := appendTo s.byType event.eventType event
      byId := appendTo s.byId event.id_ event
      seq := s.seq ++ [event]
      traceMap := [] }

/-- One start/end notification delivered to the handler, carrying the event
record it constructs (the timestamp is captured at construction time and is
an input of the environment here). -/
inductive Notif
  | startEv (event : CBEvent)
  | endEv (event : CBEvent)
deriving DecidableEq

/-- Dispatch one notification to the handler. -/
def stepNotif (s : HState) (n : Notif) : HState :=
  match n with
  | .startEv e => on_event_start s e
  | .endEv e => on_event_end s e

/-- Run a sequence of notifications from the freshly initialised handler. -/
def runHandler (ns : List Notif) : HState :=
  ns.foldl stepNotif initState

/-- The event record inserted by each notification. -/
def eventOf (n : Notif) : CBEvent :=
  match n with
  | .startEv e => e
  | .endEv e => e

/-- `get_events(event_type)`: the by-type bucket when a type is given, else
the sequential log.  Indexing `self._event_pairs_by_type[event_type]` is a
`defaultdict` access, so the returned state reflects its store-on-miss
behaviour. -/
def get_events (s : HState) (eventType : Option String) :
    List CBEvent × HState :=
  match eventType with
  | some ty =>
    let r := dgetD s.byType ty
    (r.1, { s with byType := r.2 })
  | none => (s.seq, s)

/-- `EventStats` (llama_index): total seconds, average seconds, group count. -/
structure EventStats where
  total_secs : ℚ
  average_secs : ℚ
  total_count : Nat
deriving DecidableEq

/-- The semantics of iterating a fallible computation over a Python list:
apply `f` to each element in order, the first raised exception aborting the
whole iteration (this is `mapM` for `Except`, written as plain recursion). -/
def exceptMap {α β : Type} (f : α → Except PyErr β) : List α → Except PyErr (List β)
  | [] => .ok []
  | x :: xs =>
    match f x with
    | .error e => .error e
    | .ok y =>
      match exceptMap f xs with
      | .error e => .error e
      | .ok ys => .ok (y :: ys)

/-- The duration in seconds of one pairing group:
`(strptime(pair[-1].time) - strptime(pair[0].time)).total_seconds()`.
`pair[0]` on an empty list is an `IndexError`; a malformed timestamp is a
`ValueError` from `strptime`. -/
def eventPairDuration (g : List CBEvent) : Except PyErr ℚ :=
  match g with
  | [] => .error PyErr.indexError
  | e :: es =>
    match strptime e.time, strptime ((e :: es).getLastD e).time with
    | some a, some b => .ok (((b : ℚ) - (a : ℚ)) / 1000000)
    | _, _ => .error PyErr.valueError

/-- `_get_time_stats_from_event_pairs`: sum the per-group durations, then
build `EventStats` with `average_secs = total_secs / len(event_pairs)` — an
unguarded division that raises `ZeroDivisionError` on zero groups. -/
def _get_time_stats_from_event_pairs (event_pairs : List (List CBEvent)) :
    Except PyErr EventStats :=
  match exceptMap eventPairDuration event_pairs with
  | .error e => .error e
  | .ok durs =>
    if event_pairs.length = 0 then .error PyErr.zeroDivisionError
    else
      .ok { total_secs := durs.sum
            average_secs := durs.sum / (event_pairs.length : ℚ)
            total_count := event_pairs.length }

/-- The ids of a list of events in first-encounter order — the key insertion
order of the grouping dict in `_get_event_pairs`. -/
def encounterIds (ids : List String) : List String :=
  ids.foldl (fun acc i => if i ∈ acc then acc else acc ++ [i]) []

/-- The grouping loop of `_get_event_pairs`: fold the events into a
`defaultdict(list)` keyed by id and take its values, i.e. the groups in
first-encounter order of their ids, each group in input order. -/
def groupById (events : List CBEvent) : List (List CBEvent) :=
  (events.foldl (fun m e => appendTo m e.id_ e) []).map Prod.snd

/-- The sort key computed by `sorted`'s `key` lambda for one group:
`datetime.strptime(x[0].time, TIMESTAMP_FORMAT)`. -/
def sortKey (g : List CBEvent) : Except PyErr Nat :=
  match g with
  | [] => .error PyErr.indexError
  | e :: _ =>
    match strptime e.time with
    | some t => .ok t
    | none => .error PyErr.valueError

/-- A default event record (never observed on any successful path). -/
def dfltEvent : CBEvent := { eventType := "", payload := none, id_ := "", time := "" }

/-- The parsed first-element timestamp of a group, defaulted to `0` when the
group is empty or unparseable (on every successful path of
`_get_event_pairs` it equals the timestamp `sortKey` computed). -/
def keyD (g : List CBEvent) : Nat :=
  (strptime ((g.headD dfltEvent).time)).getD 0

/-- The sort order of `_get_event_pairs`: ascending parsed first timestamp. -/
def groupLe (g₁ g₂ : List CBEvent) : Prop := keyD g₁ ≤ keyD g₂

instance : DecidableRel groupLe := fun a b => Nat.decLe (keyD a) (keyD b)

instance : IsTotal (List CBEvent) groupLe :=
  ⟨fun a b => Nat.le_total (keyD a) (keyD b)⟩

instance : IsTrans (List CBEvent) groupLe :=
  ⟨fun _ _ _ h₁ h₂ => Nat.le_trans h₁ h₂⟩

/-- `_get_event_pairs`: group the events by id (dict in key-insertion order),
then `sorted(event_pairs.values(), key=...)`.  Python's `sorted` first
computes the key of every element in list order — any `strptime` failure
aborts the whole call — and then sorts stably and ascendingly; the stable
ascending sort is embedded as `List.insertionSort`. -/
def _get_event_pairs (events : List CBEvent) :
    Except PyErr (List (List CBEvent)) :=
  let groups := groupById events
  match exceptMap sortKey groups with
  | .error e => .error e
  | .ok _ => .ok (List.insertionSort groupLe groups)

/-- Modelled from the spec: the grouping described in §4.2 — for each id in
the order the ids are first encountered, the group of all input events with
that id, in input order. -/
def groupSpec (events : List CBEvent) : List (List CBEvent) :=
  (encounterIds (events.map CBEvent.id_)).map
    (fun i => events.filter (fun e => e.id_ == i))

/-- Modelled from the spec: Python's `str(int)` decimal rendering used by the
f-string in `set_experiment_id` (standard library, not under `src/`); this is
Lean's own decimal digit rendering of a natural number. -/
def strOfNat (n : Nat) : List Char := Nat.toDigits 10 n

/-- `set_experiment_id`: concatenate the current time in milliseconds since
the epoch with a 6-digit random number, then truncate to the first 8
characters.  The current wall time and the drawn random number are inputs of
the environment.  The `print`, logging and `self.experiment_id` assignment do
not affect the returned identifier. -/
def set_experiment_id (timestampMs randomPart : Nat) : List Char :=
  (strOfNat timestampMs ++ strOfNat randomPart).take 8

/-- `BASE_TRACE_EVENT` (llama_index): the sentinel root id of a trace. -/
def BASE_TRACE_EVENT : String := "root"

/-- One line emitted by `_print_trace_map`, kept structured: the indentation
width in spaces (two per depth level), the event type of the group's first
element, and the printed total duration in seconds. -/
structure TraceLine where
  indentWidth : Nat
  eventType : String
  totalSecs : ℚ
deriving DecidableEq

/-- Outcomes of running the unguarded recursion of `_print_trace_map` with
explicit fuel: `fuelOut` marks that the given recursion depth was exhausted
(the only way the Python original fails to terminate is unbounded depth),
and `py e` propagates a Python exception raised while computing a line. -/
inductive RenderErr
  | fuelOut
  | py (e : PyErr)
deriving DecidableEq

/-- The line-emission step of `_print_trace_map` at one node: nothing when
the node's by-id group is empty; otherwise one line with the group's event
type and its total duration (computed by `_get_time_stats_from_event_pairs`
on the single group), indented two spaces per level.  A Python exception
while computing the duration propagates. -/
def nodeLine (byId : List (String × List CBEvent)) (cur : String)
    (level : Nat) : Except RenderErr (List TraceLine) :=
  match lookupD byId cur with
  | [] => .ok []
  | e :: es =>
    match _get_time_stats_from_event_pairs [e :: es] with
    | .ok st => .ok [⟨2 * level, e.eventType, st.total_secs⟩]
    | .error pe => .error (RenderErr.py pe)

mutual

/-- `_print_trace_map(cur_event_id, level)`: look up the by-id group of the
current node and emit its line (`nodeLine`); then recurse into the trace
map's children of the node in stored order.  The recursion of the source is
unguarded; it is embedded with explicit fuel. -/
def _print_trace_map (byId : List (String × List CBEvent))
    (tm : List (String × List String)) :
    Nat → String → Nat → Except RenderErr (List TraceLine)
  | 0, _, _ => .error RenderErr.fuelOut
  | fuel + 1, cur, level =>
    match nodeLine byId cur level with
    | .error er => .error er
    | .ok line =>
      match _print_trace_children byId tm fuel (lookupD tm cur) (level + 1) with
      | .error er => .error er
      | .ok outs => .ok (line ++ outs.flatten)

/-- The `for child_event_id in child_event_ids` loop of `_print_trace_map`. -/
def _print_trace_children (byId : List (String × List CBEvent))
    (tm : List (String × List String)) :
    Nat → List String → Nat → Except RenderErr (List (List TraceLine))
  | _, [], _ => .ok []
  | fuel, c :: cs, level =>
    match _print_trace_map byId tm fuel c level with
    | .error er => .error er
    | .ok out =>
      match _print_trace_children byId tm fuel cs level with
      | .error er => .error er
      | .ok outs => .ok (out :: outs)

end

mutual

/-- Modelled from the spec: the depth-first pre-order visit sequence of the
trace-map walk — each visited node paired with its depth level, parent before
children, children in the trace map's stored order, a node without a trace
map entry having no children.  Fuel limits the depth exactly as in
`_print_trace_map`. -/
def visitNodes (tm : List (String × List String)) :
    Nat → String → Nat → Option (List (String × Nat))
  | 0, _, _ => none
  | fuel + 1, cur, level =>
    match visitChildren tm fuel (lookupD tm cur) (level + 1) with
    | none => none
    | some vss => some ((cur, level) :: vss.flatten)

/-- The children loop of `visitNodes`. -/
def visitChildren (tm : List (String × List String)) :
    Nat → List String → Nat → Option (List (List (String × Nat)))
  | _, [], _ => some []
  | fuel, c :: cs, level =>
    match visitNodes tm fuel c level with
    | none => none
    | some vs =>
      match visitChildren tm fuel cs level with
      | none => none
      | some vss => some (vs :: vss)

end

/-- The line the render emits at one visited node, if any: nothing when the
by-id group of the node is empty, else the group's event type with its
duration, indented two spaces per depth level.  (On every successful render
path the group's timestamps parse, so the duration is defined.) -/
def lineAt (byId : List (String × List CBEvent)) (v : String × Nat) :
    Option TraceLine :=
  match lookupD byId v.1 with
  | [] => none
  | e :: es =>
    match strptime e.time, strptime (((e :: es).getLastD e).time) with
    | some a, some b =>
      some ⟨2 * v.2, e.eventType, ((b : ℚ) - (a : ℚ)) / 1000000⟩
    | _, _ => none

/-- A path through the trace map: successive steps follow the stored
children lists (`lookupD tm`). -/
inductive PathFrom (tm : List (String × List String)) : String → List String → Prop
  | nil (x : String) : PathFrom tm x []
  | cons {x c : String} {p : List String} :
      c ∈ lookupD tm x → PathFrom tm c p → PathFrom tm x (c :: p)

/-- Every id that occurs in some children list of the trace map. -/
def allChildren (tm : List (String × List String)) : List String :=
  (tm.map Prod.snd).flatten

/-- The timestamp string of a group's first element (`pair[0].time`),
defaulted on the empty group. -/
def firstTime (g : List CBEvent) : String := (g.headD dfltEvent).time

/-- The timestamp string of a group's last element (`pair[-1].time`),
defaulted on the empty group. -/
def lastTime (g : List CBEvent) : String :=
  match g with
  | [] => ""
  | e :: es => ((e :: es).getLastD e).time

/-- The duration in seconds a group contributes on the successful paths of
the statistics operation, as a total function:
`strptime(last.time) - strptime(first.time)` in seconds, defaulting the
parses to `0` (on successful paths the parses succeed). -/
def durQ (g : List CBEvent) : ℚ :=
  (((strptime (lastTime g)).getD 0 : ℚ) -
    ((strptime (firstTime g)).getD 0 : ℚ)) / 1000000

/-- Concrete input: one group whose two members carry decreasing
timestamps (2 s, then 1 s). -/
def cexDecreasingGroup : List CBEvent :=
  [ { eventType := "retrieve", payload := none, id_ := "a", time := "2000000" },
    { eventType := "retrieve", payload := none, id_ := "a", time := "1000000" } ]

/-- Concrete input: one group spanning 2.5 seconds (1 s to 3.5 s). -/
def groupSpanning25 : List CBEvent :=
  [ { eventType := "llm", payload := none, id_ := "a", time := "1000000" },
    { eventType := "llm", payload := none, id_ := "a", time := "3500000" } ]

/-- Concrete input: two single-member groups, the first with a malformed
timestamp, the second well-formed. -/
def cexBadTimestampEvents : List CBEvent :=
  [ { eventType := "llm", payload := none, id_ := "a", time := "oops" },
    { eventType := "llm", payload := none, id_ := "b", time := "5" } ]

/-- Concrete input: three ids whose first timestamps arrive in the order
`[t2, t1, t3]` (20, 10, 30). -/
def exPairEvents : List CBEvent :=
  [ { eventType := "llm", payload := none, id_ := "a", time := "20" },
    { eventType := "llm", payload := none, id_ := "b", time := "10" },
    { eventType := "llm", payload := none, id_ := "c", time := "30" } ]

/-- The groups `_get_event_pairs` returns on `exPairEvents`: ordered
`[t1, t2, t3]`. -/
def exPairGroups : List (List CBEvent) :=
  [ [ { eventType := "llm", payload := none, id_ := "b", time := "10" } ],
    [ { eventType := "llm", payload := none, id_ := "a", time := "20" } ],
    [ { eventType := "llm", payload := none, id_ := "c", time := "30" } ] ]

/-- Concrete by-id view for the render examples: one complete pair under id
`"a"` spanning one second; the sentinel root has no group. -/
def exRenderById : List (String × List CBEvent) :=
  [ ("a",
     [ { eventType := "chain", payload := none, id_ := "a", time := "0" },
       { eventType := "chain", payload := none, id_ := "a", time := "1000000" } ]) ]

/-- Concrete trace map for the render examples: the sentinel root has the
single child `"a"`. -/
def exRenderTm : List (String × List String) :=
  [ ("root", ["a"]) ]


/-! ## Lemmas about the association-list embedding of Python dicts -/

theorem dgetD_fst {α : Type} (m : List (String × List α)) (k : String) :
    (dgetD m k).1 = lookupD m k := by
  induction m with
  | nil => rfl
  | cons h t ih =>
    obtain ⟨k', vs⟩ := h
    by_cases hk : k = k' <;> simp [dgetD, lookupD, hk, ih]

theorem dgetD_snd {α : Type} (m : List (String × List α)) (k : String) :
    (dgetD m k).2 = if k ∈ m.map Prod.fst then m else m ++ [(k, [])] := by
  induction m with
  | nil => simp [dgetD]
  | cons h t ih =>
    obtain ⟨k', vs⟩ := h
    by_cases hk : k = k'
    · simp [dgetD, hk]
    · by_cases hm : k ∈ List.map Prod.fst t
      · simp [dgetD, hk, ih, hm]
      · simp [dgetD, hk, ih, hm]

theorem lookupD_append_nilbucket {α : Type} (m : List (String × List α))
    (k k' : String) : lookupD (m ++ [(k, [])]) k' = lookupD m k' := by
  induction m with
  | nil => by_cases hk : k' = k <;> simp [lookupD, hk]
  | cons h t ih =>
    obtain ⟨k'', vs⟩ := h
    by_cases hk : k' = k'' <;> simp [lookupD, hk, ih]

/-! ## C5 -/

/-- C5: every call to `on_event_end` resets the current trace map to empty
as a side effect, regardless of the prior state. -/
theorem on_event_end_resets_trace_map (s : HState) (e : CBEvent) :
    (on_event_end s e).traceMap = [] := rfl

/-! ## C4 -/

/-- C4: on an empty list of groups (`count == 0`) the statistics operation
raises `ZeroDivisionError` from the unguarded division
`total_secs / len(event_pairs)` — not the `NoEventsError` the spec
requires. -/
theorem stats_empty_raises_zero_division :
    _get_time_stats_from_event_pairs [] = .error PyErr.zeroDivisionError := rfl

/-! ## C7 -/

/-- C7 counterexample: reading `get_events` for a type that has no bucket
yet goes through `defaultdict.__getitem__`, which stores a fresh empty
bucket — the internal state is changed by the read. -/
theorem get_events_mutates_on_miss :
    (get_events initState (some "llm")).2 ≠ initState := by decide

/-- C7 (amended): `get_events` returns the by-type bucket when a type is
given and the full sequential log otherwise; the sequential log, the by-id
map, the trace map and every by-type bucket's contents are left unchanged —
but querying an absent type stores an empty bucket for it in the by-type
map (`defaultdict` store-on-miss), and the code returns the internal list
itself rather than a read-only copy. -/
theorem get_events_read (s : HState) (t : Option String) :
    (get_events s t).1 =
      (match t with
       | none => s.seq
       | some ty => lookupD s.byType ty)
    ∧ (get_events s t).2.seq = s.seq
    ∧ (get_events s t).2.byId = s.byId
    ∧ (get_events s t).2.traceMap = s.traceMap
    ∧ (get_events s t).2.curTraceId = s.curTraceId
    ∧ (∀ k, lookupD (get_events s t).2.byType k = lookupD s.byType k)
    ∧ (get_events s t).2.byType =
      (match t with
       | none => s.byType
       | some ty =>
         if ty ∈ s.byType.map Prod.fst then s.byType
         else s.byType ++ [(ty, [])]) := by
  cases t with
  | none => exact ⟨rfl, rfl, rfl, rfl, rfl, fun _ => rfl, rfl⟩
  | some ty =>
    refine ⟨dgetD_fst _ _, rfl, rfl, rfl, rfl, ?_, dgetD_snd _ _⟩
    intro k
    show lookupD (dgetD s.byType ty).2 k = lookupD s.byType k
    rw [dgetD_snd]
    split
    · rfl
    · exact lookupD_append_nilbucket _ _ _

/-! ## Lemmas about `exceptMap` -/

theorem exceptMap_ok_map {α β : Type} (f : α → Except PyErr β) (gf : α → β)
    (l : List α) (h : ∀ x ∈ l, f x = .ok (gf x)) :
    exceptMap f l = .ok (l.map gf) := by
  induction l with
  | nil => rfl
  | cons x xs ih =>
    have hx := h x (List.mem_cons_self x xs)
    have hxs := ih fun y hy => h y (List.mem_cons_of_mem x hy)
    simp [exceptMap, hx, hxs]

theorem exceptMap_ok_forall {α β : Type} {f : α → Except PyErr β}
    {l : List α} {ys : List β} (h : exceptMap f l = .ok ys) :
    ∀ x ∈ l, ∃ y, f x = .ok y := by
  induction l generalizing ys with
  | nil => intro x hx; cases hx
  | cons a t ih =>
    cases hfa : f a with
    | error e => simp [exceptMap, hfa] at h
    | ok y =>
      cases ht : exceptMap f t with
      | error e => simp [exceptMap, hfa, ht] at h
      | ok ys' =>
        intro x hx
        rcases List.mem_cons.mp hx with rfl | hx
        · exact ⟨y, hfa⟩
        · exact ih ht x hx

theorem exceptMap_error_of {α β : Type} (f : α → Except PyErr β)
    (e₀ : PyErr) (l : List α)
    (hall : ∀ x ∈ l, f x = .error e₀ ∨ ∃ y, f x = .ok y)
    (hex : ∃ x ∈ l, f x = .error e₀) :
    exceptMap f l = .error e₀ := by
  induction l with
  | nil => obtain ⟨x, hx, _⟩ := hex; cases hx
  | cons a t ih =>
    rcases hall a (List.mem_cons_self a t) with ha | ⟨y, ha⟩
    · simp [exceptMap, ha]
    · have hex' : ∃ x ∈ t, f x = .error e₀ := by
        obtain ⟨x, hx, hfx⟩ := hex
        rcases List.mem_cons.mp hx with rfl | hx
        · rw [ha] at hfx; cases hfx
        · exact ⟨x, hx, hfx⟩
      have := ih (fun y hy => hall y (List.mem_cons_of_mem a hy)) hex'
      simp [exceptMap, ha, this]

/-! ## C3 -/

theorem eventPairDuration_ok (g : List CBEvent) (hg : g ≠ [])
    (h1 : (strptime (firstTime g)).isSome)
    (h2 : (strptime (lastTime g)).isSome) :
    eventPairDuration g = .ok (durQ g) := by
  cases g with
  | nil => exact absurd rfl hg
  | cons e es =>
    obtain ⟨a, ha⟩ := Option.isSome_iff_exists.mp h1
    obtain ⟨b, hb⟩ := Option.isSome_iff_exists.mp h2
    have ha' : strptime e.time = some a := ha
    have hb' : strptime ((e :: es).getLastD e).time = some b := hb
    simp only [eventPairDuration, durQ, firstTime, lastTime]
    rw [ha', hb']
    simp [ha', hb']

/-- C3 counterexample: on a group whose members carry decreasing timestamps
(first 2 s, last 1 s) the statistics operation returns a strictly negative
total and average — the per-group duration is not a non-negative number. -/
theorem stats_negative_on_decreasing :
    _get_time_stats_from_event_pairs [cexDecreasingGroup] =
      .ok { total_secs := -1, average_secs := -1, total_count := 1 }
    ∧ (-1 : ℚ) < 0 := by
  constructor
  · have h1 : strptime "2000000" = some 2000000 := by decide
    have h2 : strptime "1000000" = some 1000000 := by decide
    simp [_get_time_stats_from_event_pairs, exceptMap, eventPairDuration,
      cexDecreasingGroup, List.getLastD, h1, h2]
    norm_num
  · norm_num

/-- C3 (amended): for a non-empty list of non-empty groups with parseable
timestamps, in which each group's first timestamp is at most its last (as is
the case for groups recorded in chronological order), the statistics
operation returns `total_secs` equal to the sum over groups of
`last - first` in seconds, each such duration non-negative, a single-element
group contributing `0`; `total_count` is the number of groups and
`average_secs` is `total_secs / total_count`.  (Without the first-at-most-
last assumption the per-group duration `last - first` can be negative.) -/
theorem stats_correct (pairs : List (List CBEvent)) (hne : pairs ≠ [])
    (h : ∀ g ∈ pairs, g ≠ [] ∧ (strptime (firstTime g)).isSome ∧
      (strptime (lastTime g)).isSome ∧
      (strptime (firstTime g)).getD 0 ≤ (strptime (lastTime g)).getD 0) :
    _get_time_stats_from_event_pairs pairs =
      .ok { total_secs := (pairs.map durQ).sum
            average_secs := (pairs.map durQ).sum / (pairs.length : ℚ)
            total_count := pairs.length }
    ∧ (∀ g ∈ pairs, 0 ≤ durQ g)
    ∧ (∀ g ∈ pairs, g.length = 1 → durQ g = 0) := by
  refine ⟨?_, ?_, ?_⟩
  · have hmap : exceptMap eventPairDuration pairs = .ok (pairs.map durQ) :=
      exceptMap_ok_map _ _ _ fun g hg =>
        eventPairDuration_ok g (h g hg).1 (h g hg).2.1 (h g hg).2.2.1
    have hlen : pairs.length ≠ 0 := fun hz => hne (List.length_eq_zero.mp hz)
    simp [_get_time_stats_from_event_pairs, hmap, hlen]
  · intro g hg
    obtain ⟨-, -, -, hle⟩ := h g hg
    unfold durQ
    apply div_nonneg _ (by norm_num)
    simp only [sub_nonneg]
    exact_mod_cast hle
  · intro g hg hlen
    match g, hlen with
    | [e], _ =>
      simp [durQ, firstTime, lastTime, List.getLastD]

/-- C3 witness: a single group spanning 2.5 seconds satisfies the amended
statement's hypotheses, so the amended theorem applies to it. -/
theorem stats_correct_witness :
    _get_time_stats_from_event_pairs [groupSpanning25] =
      .ok { total_secs := ([groupSpanning25].map durQ).sum
            average_secs :=
              ([groupSpanning25].map durQ).sum /
                (([groupSpanning25] : List (List CBEvent)).length : ℚ)
            total_count := [groupSpanning25].length }
    ∧ (∀ g ∈ [groupSpanning25], 0 ≤ durQ g)
    ∧ (∀ g ∈ [groupSpanning25], g.length = 1 → durQ g = 0) :=
  stats_correct [groupSpanning25] (by decide) (by decide)

/-- The statistics on the 2.5-second group, evaluated: total 2.5, average
2.5, count 1. -/
theorem stats_on_group_spanning25 :
    _get_time_stats_from_event_pairs [groupSpanning25] =
      .ok { total_secs := 5 / 2, average_secs := 5 / 2, total_count := 1 } := by
  have h1 : strptime "1000000" = some 1000000 := by decide
  have h2 : strptime "3500000" = some 3500000 := by decide
  simp [_get_time_stats_from_event_pairs, exceptMap, eventPairDuration,
    groupSpanning25, List.getLastD, h1, h2]
  norm_num

/-! ## Lemmas about the grouping of `_get_event_pairs` -/

theorem encounterIds_snoc (l : List String) (x : String) :
    encounterIds (l ++ [x]) =
      if x ∈ encounterIds l then encounterIds l else encounterIds l ++ [x] := by
  simp [encounterIds, List.foldl_append]

theorem mem_encounterIds_aux (l acc : List String) (x : String) :
    x ∈ l.foldl (fun acc i => if i ∈ acc then acc else acc ++ [i]) acc ↔
      x ∈ acc ∨ x ∈ l := by
  induction l generalizing acc with
  | nil => simp
  | cons i t ih =>
    simp only [List.foldl_cons]
    rw [ih]
    by_cases h : i ∈ acc
    · rw [if_pos h]
      constructor
      · rintro (hx | hx)
        · exact Or.inl hx
        · exact Or.inr (List.mem_cons_of_mem i hx)
      · rintro (hx | hx)
        · exact Or.inl hx
        · rcases List.mem_cons.mp hx with rfl | hx'
          · exact Or.inl h
          · exact Or.inr hx'
    · rw [if_neg h]
      simp [List.mem_append, List.mem_cons, or_assoc]

theorem mem_encounterIds (l : List String) (x : String) :
    x ∈ encounterIds l ↔ x ∈ l := by
  have := mem_encounterIds_aux l [] x
  simpa [encounterIds] using this

theorem encounterIds_nodup_aux (l acc : List String) (h : acc.Nodup) :
    (l.foldl (fun acc i => if i ∈ acc then acc else acc ++ [i]) acc).Nodup := by
  induction l generalizing acc with
  | nil => exact h
  | cons i t ih =>
    simp only [List.foldl_cons]
    by_cases hi : i ∈ acc
    · rw [if_pos hi]; exact ih acc h
    · rw [if_neg hi]
      refine ih _ ?_
      rw [List.nodup_append]
      exact ⟨h, List.nodup_singleton i, by simpa using hi⟩

theorem encounterIds_nodup (l : List String) : (encounterIds l).Nodup :=
  encounterIds_nodup_aux l [] List.nodup_nil

theorem filter_id_singleton_ne (e : CBEvent) (i : String) (h : e.id_ ≠ i) :
    List.filter (fun e' => e'.id_ == i) [e] = [] := by
  simp [List.filter_singleton, h]

theorem filter_id_singleton_self (e : CBEvent) :
    List.filter (fun e' => e'.id_ == e.id_) [e] = [e] := by
  simp [List.filter_singleton]

theorem appendTo_map_not_mem {α : Type} (E : List String)
    (F : String → List α) (x : String) (v : α) (hx : x ∉ E) :
    appendTo (E.map fun i => (i, F i)) x v =
      E.map (fun i => (i, F i)) ++ [(x, [v])] := by
  induction E with
  | nil => rfl
  | cons i t ih =>
    have hxi : x ≠ i := fun h => hx (h ▸ List.mem_cons_self i t)
    have hxt : x ∉ t := fun h => hx (List.mem_cons_of_mem i h)
    simp [appendTo, hxi, ih hxt]

theorem appendTo_map_mem {α : Type} (E : List String)
    (F G : String → List α) (x : String) (v : α)
    (hmem : x ∈ E) (hnd : E.Nodup)
    (hne : ∀ i, i ≠ x → G i = F i) (hx : G x = F x ++ [v]) :
    appendTo (E.map fun i => (i, F i)) x v = E.map (fun i => (i, G i)) := by
  induction E with
  | nil => cases hmem
  | cons i t ih =>
    by_cases hxi : x = i
    · subst hxi
      have hxt : x ∉ t := (List.nodup_cons.mp hnd).1
      have htail : t.map (fun i => (i, F i)) = t.map (fun i => (i, G i)) :=
        List.map_congr_left fun j hj =>
          congrArg (Prod.mk j) (hne j (fun hjx => hxt (hjx ▸ hj))).symm
      simp only [List.map_cons, appendTo]
      rw [if_true, htail, hx]
    · have hmem' : x ∈ t := by
        rcases List.mem_cons.mp hmem with h | h
        · exact absurd h hxi
        · exact h
      have hnd' : t.Nodup := (List.nodup_cons.mp hnd).2
      simp only [List.map_cons, appendTo, if_neg hxi]
      rw [hne i (fun hix => hxi hix.symm), ih hmem' hnd']

theorem groupFold_eq (events : List CBEvent) :
    events.foldl (fun m e => appendTo m e.id_ e) [] =
    (encounterIds (events.map CBEvent.id_)).map
      (fun i => (i, events.filter (fun e => e.id_ == i))) := by
  induction events using List.reverseRecOn with
  | nil => rfl
  | append_singleton es e ih =>
    rw [List.foldl_append, List.foldl_cons, List.foldl_nil, ih]
    rw [List.map_append, List.map_cons, List.map_nil, encounterIds_snoc]
    by_cases hmem : e.id_ ∈ encounterIds (es.map CBEvent.id_)
    · rw [if_pos hmem]
      refine appendTo_map_mem _ _ _ _ _ hmem (encounterIds_nodup _) ?_ ?_
      · intro i hi
        rw [List.filter_append, filter_id_singleton_ne e i (fun h => hi h.symm),
          List.append_nil]
      · rw [List.filter_append, filter_id_singleton_self]
    · rw [if_neg hmem]
      rw [appendTo_map_not_mem _ _ _ _ hmem, List.map_append, List.map_cons,
        List.map_nil]
      have hid : e.id_ ∉ es.map CBEvent.id_ :=
        fun h => hmem ((mem_encounterIds _ _).mpr h)
      have hfilter_nil : es.filter (fun e' => e'.id_ == e.id_) = [] := by
        rw [List.filter_eq_nil_iff]
        intro e' he' hbe
        exact hid (List.mem_map.mpr ⟨e', he', beq_iff_eq.mp hbe⟩)
      congr 1
      · refine List.map_congr_left fun i hi => ?_
        have hine : e.id_ ≠ i := fun h => hmem (h ▸ hi)
        rw [List.filter_append, filter_id_singleton_ne e i hine,
          List.append_nil]
      · rw [List.filter_append, hfilter_nil, List.nil_append,
          filter_id_singleton_self]

theorem groupById_eq_groupSpec (events : List CBEvent) :
    groupById events = groupSpec events := by
  unfold groupById groupSpec
  rw [groupFold_eq, List.map_map]
  rfl

theorem groupSpec_ne_nil (events : List CBEvent) :
    ∀ g ∈ groupSpec events, g ≠ [] := by
  intro g hg
  obtain ⟨i, hi, rfl⟩ := List.mem_map.mp hg
  have hi' : i ∈ events.map CBEvent.id_ := (mem_encounterIds _ _).mp hi
  obtain ⟨e, he, rfl⟩ := List.mem_map.mp hi'
  have : e ∈ events.filter (fun e' => e'.id_ == e.id_) :=
    List.mem_filter.mpr ⟨he, by simp⟩
  exact List.ne_nil_of_mem this

/-! ## C6 -/

/-- C6 counterexample: with a malformed first timestamp in the group of id
`"a"`, the whole `_get_event_pairs` call raises — the well-formed group of
id `"b"` is not returned, although on its own it pairs fine. -/
theorem pairing_bad_timestamp_aborts_other_groups :
    _get_event_pairs cexBadTimestampEvents = .error PyErr.valueError
    ∧ _get_event_pairs
        [{ eventType := "llm", payload := none, id_ := "b", time := "5" }] =
      .ok [[{ eventType := "llm", payload := none, id_ := "b", time := "5" }]] :=
  ⟨by decide, by decide⟩

/-- C6 (amended): a malformed (unparseable) first-element timestamp in any
group is fatal to the whole call: `sorted`'s key function raises
`InvalidTimestamp` (`ValueError`) while computing the sort keys, which
aborts `_get_event_pairs` entirely — no group is paired (fail-the-whole-call
policy, the spec's stated alternative). -/
theorem pairing_aborts_on_bad_timestamp (events : List CBEvent)
    (h : ∃ g ∈ groupById events, strptime (firstTime g) = none) :
    _get_event_pairs events = .error PyErr.valueError := by
  have hne : ∀ g ∈ groupById events, g ≠ [] := by
    rw [groupById_eq_groupSpec]
    exact groupSpec_ne_nil events
  have hall : ∀ g ∈ groupById events,
      sortKey g = .error PyErr.valueError ∨ ∃ t, sortKey g = .ok t := by
    intro g hg
    cases g with
    | nil => exact absurd rfl (hne _ hg)
    | cons e es =>
      cases hst : strptime e.time with
      | none => exact Or.inl (by simp [sortKey, hst])
      | some t => exact Or.inr ⟨t, by simp [sortKey, hst]⟩
  have hex : ∃ g ∈ groupById events, sortKey g = .error PyErr.valueError := by
    obtain ⟨g, hg, hnone⟩ := h
    refine ⟨g, hg, ?_⟩
    cases g with
    | nil => exact absurd rfl (hne _ hg)
    | cons e es =>
      have hst : strptime e.time = none := hnone
      simp [sortKey, hst]
  have hmap := exceptMap_error_of sortKey PyErr.valueError (groupById events)
    hall hex
  simp [_get_event_pairs, hmap]

/-- C6 witness: the amended theorem applied to the concrete input with a
malformed timestamp. -/
theorem pairing_aborts_on_bad_timestamp_witness :
    _get_event_pairs cexBadTimestampEvents = .error PyErr.valueError :=
  pairing_aborts_on_bad_timestamp cexBadTimestampEvents (by decide)

/-! ## C1: stability of the sort -/

theorem filter_orderedInsert_key_eq (x : List CBEvent)
    (l : List (List CBEvent)) (k : Nat) (hx : keyD x = k) :
    (List.orderedInsert groupLe x l).filter (fun g => keyD g == k) =
      x :: l.filter (fun g => keyD g == k) := by
  induction l with
  | nil => simp [List.filter_singleton, hx]
  | cons b t ih =>
    by_cases hle : groupLe x b
    · rw [List.orderedInsert, if_pos hle]
      simp [List.filter_cons, hx]
    · rw [List.orderedInsert, if_neg hle]
      have hle' : ¬ keyD x ≤ keyD b := hle
      have hbk' : ¬ ((keyD b == k) = true) := by
        simp only [beq_iff_eq]
        omega
      rw [List.filter_cons, if_neg hbk', List.filter_cons, if_neg hbk']
      exact ih

theorem filter_orderedInsert_key_ne (x : List CBEvent)
    (l : List (List CBEvent)) (k : Nat) (hx : keyD x ≠ k) :
    (List.orderedInsert groupLe x l).filter (fun g => keyD g == k) =
      l.filter (fun g => keyD g == k) := by
  induction l with
  | nil => simp [List.filter_singleton, hx]
  | cons b t ih =>
    by_cases hle : groupLe x b
    · rw [List.orderedInsert, if_pos hle]
      simp [List.filter_cons, hx]
    · rw [List.orderedInsert, if_neg hle]
      rw [List.filter_cons, List.filter_cons, ih]

theorem filter_insertionSort_key (k : Nat) (l : List (List CBEvent)) :
    (List.insertionSort groupLe l).filter (fun g => keyD g == k) =
      l.filter (fun g => keyD g == k) := by
  induction l with
  | nil => rfl
  | cons a t ih =>
    simp only [List.insertionSort]
    by_cases ha : keyD a = k
    · rw [filter_orderedInsert_key_eq a _ k ha, ih, List.filter_cons]
      simp [ha]
    · rw [filter_orderedInsert_key_ne a _ k ha, ih, List.filter_cons]
      simp [ha]

theorem get_event_pairs_ok_eq {events : List CBEvent}
    {gs : List (List CBEvent)} (h : _get_event_pairs events = .ok gs) :
    gs = List.insertionSort groupLe (groupById events)
    ∧ ∀ g ∈ groupById events, ∃ t, sortKey g = .ok t := by
  have h' : (match exceptMap sortKey (groupById events) with
      | Except.error e => (Except.error e : Except PyErr (List (List CBEvent)))
      | Except.ok _ =>
        Except.ok (List.insertionSort groupLe (groupById events))) =
      Except.ok gs := h
  cases hm : exceptMap sortKey (groupById events) with
  | error e => rw [hm] at h'; cases h'
  | ok keys =>
    rw [hm] at h'
    injection h' with h2
    exact ⟨h2.symm, exceptMap_ok_forall hm⟩

/-- C1: on every successful call, `_get_event_pairs` returns exactly the
groups obtained by grouping the input events by id — for each id in
first-encounter order, all members with that id in input order
(`groupSpec`) — rearranged into ascending order of the parsed timestamp of
each group's first element, stably: for every key value, the subsequence of
groups with that first-timestamp is exactly the one of the encounter-order
grouping. -/
theorem pairing_groups_sorted_stable (events : List CBEvent)
    (gs : List (List CBEvent)) (h : _get_event_pairs events = Except.ok gs) :
    gs.Perm (groupSpec events)
    ∧ List.Sorted groupLe gs
    ∧ (∀ g ∈ gs, g ≠ [] ∧ (strptime (firstTime g)).isSome)
    ∧ (∀ k : Nat, gs.filter (fun g => keyD g == k) =
        (groupSpec events).filter (fun g => keyD g == k)) := by
  obtain ⟨rfl, hkeys⟩ := get_event_pairs_ok_eq h
  refine ⟨?_, ?_, ?_, ?_⟩
  · exact groupById_eq_groupSpec events ▸
      List.perm_insertionSort groupLe (groupById events)
  · exact List.sorted_insertionSort groupLe (groupById events)
  · intro g hg
    have hg' : g ∈ groupById events :=
      (List.perm_insertionSort groupLe (groupById events)).mem_iff.mp hg
    obtain ⟨t, ht⟩ := hkeys g hg'
    cases g with
    | nil => simp [sortKey] at ht
    | cons e es =>
      cases hst : strptime e.time with
      | none => simp [sortKey, hst] at ht
      | some u =>
        exact ⟨List.cons_ne_nil e es, by simp [firstTime, hst]⟩
  · intro k
    rw [filter_insertionSort_key, groupById_eq_groupSpec]

/-- C1 witness: three ids whose first timestamps arrive in the order
`[20, 10, 30]` are returned as groups ordered `[10, 20, 30]`, with all the
properties of the pairing theorem. -/
theorem pairing_groups_sorted_stable_witness :
    _get_event_pairs exPairEvents = Except.ok exPairGroups
    ∧ (exPairGroups.Perm (groupSpec exPairEvents)
       ∧ List.Sorted groupLe exPairGroups
       ∧ (∀ g ∈ exPairGroups, g ≠ [] ∧ (strptime (firstTime g)).isSome)
       ∧ (∀ k : Nat, exPairGroups.filter (fun g => keyD g == k) =
           (groupSpec exPairEvents).filter (fun g => keyD g == k))) :=
  ⟨by decide,
   pairing_groups_sorted_stable exPairEvents exPairGroups (by decide)⟩

/-! ## C2: consistency of the three index views -/

theorem flatten_appendTo {α : Type} (m : List (String × List α)) (k : String)
    (v : α) :
    ((appendTo m k v).map Prod.snd).flatten.Perm
      ((m.map Prod.snd).flatten ++ [v]) := by
  induction m with
  | nil => simp [appendTo]
  | cons h t ih =>
    obtain ⟨k', vs⟩ := h
    by_cases hk : k = k'
    · simp only [appendTo, if_pos hk, List.map_cons, List.flatten_cons]
      rw [List.append_assoc, List.append_assoc]
      exact List.Perm.append_left vs List.perm_append_comm
    · simp only [appendTo, if_neg hk, List.map_cons, List.flatten_cons]
      rw [List.append_assoc]
      exact List.Perm.append_left vs ih

theorem lookupD_appendTo {α : Type} (m : List (String × List α))
    (k k' : String) (v : α) :
    lookupD (appendTo m k v) k' =
      if k' = k then lookupD m k' ++ [v] else lookupD m k' := by
  induction m with
  | nil =>
    by_cases hk : k' = k <;> simp [appendTo, lookupD, hk]
  | cons h t ih =>
    obtain ⟨k'', vs⟩ := h
    by_cases hkk : k = k''
    · subst hkk
      by_cases hk : k' = k <;> simp [appendTo, lookupD, hk]
    · by_cases hk : k' = k''
      · subst hk
        have hk2 : ¬ k' = k := fun h => hkk h.symm
        simp [appendTo, lookupD, hkk, hk2]
      · simp [appendTo, lookupD, hkk, hk, ih]

theorem stepNotif_seq (s : HState) (n : Notif) :
    (stepNotif s n).seq = s.seq ++ [eventOf n] := by
  cases n <;> rfl

theorem stepNotif_byType (s : HState) (n : Notif) :
    (stepNotif s n).byType =
      appendTo s.byType (eventOf n).eventType (eventOf n) := by
  cases n <;> rfl

theorem stepNotif_byId (s : HState) (n : Notif) :
    (stepNotif s n).byId = appendTo s.byId (eventOf n).id_ (eventOf n) := by
  cases n <;> rfl

theorem run_from_state (ns : List Notif) : ∀ s : HState,
    (ns.foldl stepNotif s).seq = s.seq ++ ns.map eventOf
    ∧ ((ns.foldl stepNotif s).byType.map Prod.snd).flatten.Perm
        ((s.byType.map Prod.snd).flatten ++ ns.map eventOf)
    ∧ ((ns.foldl stepNotif s).byId.map Prod.snd).flatten.Perm
        ((s.byId.map Prod.snd).flatten ++ ns.map eventOf)
    ∧ (∀ ty, lookupD (ns.foldl stepNotif s).byType ty =
        lookupD s.byType ty ++
          (ns.map eventOf).filter (fun e => e.eventType == ty))
    ∧ (∀ i, lookupD (ns.foldl stepNotif s).byId i =
        lookupD s.byId i ++ (ns.map eventOf).filter (fun e => e.id_ == i)) := by
  induction ns with
  | nil => intro s; simp
  | cons n t ih =>
    intro s
    obtain ⟨h1, h2, h3, h4, h5⟩ := ih (stepNotif s n)
    rw [List.foldl_cons]
    refine ⟨?_, ?_, ?_, ?_, ?_⟩
    · rw [h1, stepNotif_seq, List.append_assoc]
      rfl
    · have hstep :
          (((stepNotif s n).byType.map Prod.snd).flatten).Perm
            ((s.byType.map Prod.snd).flatten ++ [eventOf n]) := by
        rw [stepNotif_byType]
        exact flatten_appendTo s.byType (eventOf n).eventType (eventOf n)
      refine (h2.trans (List.Perm.append_right (t.map eventOf) hstep)).trans ?_
      rw [List.append_assoc, List.map_cons, List.singleton_append]
    · have hstep :
          (((stepNotif s n).byId.map Prod.snd).flatten).Perm
            ((s.byId.map Prod.snd).flatten ++ [eventOf n]) := by
        rw [stepNotif_byId]
        exact flatten_appendTo s.byId (eventOf n).id_ (eventOf n)
      refine (h3.trans (List.Perm.append_right (t.map eventOf) hstep)).trans ?_
      rw [List.append_assoc, List.map_cons, List.singleton_append]
    · intro ty
      rw [h4 ty, stepNotif_byType, lookupD_appendTo, List.map_cons,
        List.filter_cons]
      by_cases hcase : ty = (eventOf n).eventType
      · rw [if_pos hcase, if_pos (by simp [hcase]), List.append_assoc,
          List.singleton_append]
      · rw [if_neg hcase,
          if_neg (by simp; exact fun h => hcase h.symm)]
    · intro i
      rw [h5 i, stepNotif_byId, lookupD_appendTo, List.map_cons,
        List.filter_cons]
      by_cases hcase : i = (eventOf n).id_
      · rw [if_pos hcase, if_pos (by simp [hcase]), List.append_assoc,
          List.singleton_append]
      · rw [if_neg hcase,
          if_neg (by simp; exact fun h => hcase h.symm)]

/-- C2: after any sequence of start/end notifications from the fresh
handler, the three index views are consistent: the sequential log is exactly
the list of inserted records in order; the by-type and by-id views,
flattened, are permutations of it (same records, same counts, nothing lost
or duplicated); and each by-type (resp. by-id) bucket holds exactly the
inserted records of that type (resp. id), in insertion order. -/
theorem event_views_consistent (ns : List Notif) :
    (runHandler ns).seq = ns.map eventOf
    ∧ ((runHandler ns).byType.map Prod.snd).flatten.Perm (ns.map eventOf)
    ∧ ((runHandler ns).byId.map Prod.snd).flatten.Perm (ns.map eventOf)
    ∧ (∀ ty, lookupD (runHandler ns).byType ty =
        (ns.map eventOf).filter (fun e => e.eventType == ty))
    ∧ (∀ i, lookupD (runHandler ns).byId i =
        (ns.map eventOf).filter (fun e => e.id_ == i)) := by
  obtain ⟨h1, h2, h3, h4, h5⟩ := run_from_state ns initState
  exact ⟨by simpa using h1, by simpa using h2, by simpa using h3,
    fun ty => by simpa using h4 ty, fun i => by simpa using h5 i⟩

/-! ## C8: the render is a pre-order walk -/

theorem stats_single_total (e : CBEvent) (es : List CBEvent) (st : EventStats)
    (h : _get_time_stats_from_event_pairs [e :: es] = .ok st) :
    ∃ a b, strptime e.time = some a ∧
      strptime ((e :: es).getLastD e).time = some b ∧
      st.total_secs = ((b : ℚ) - (a : ℚ)) / 1000000 := by
  cases hd : eventPairDuration (e :: es) with
  | error er => simp [_get_time_stats_from_event_pairs, exceptMap, hd] at h
  | ok d =>
    have hst : st.total_secs = d := by
      simp [_get_time_stats_from_event_pairs, exceptMap, hd] at h
      rw [← h]
    cases hsa : strptime e.time with
    | none =>
      simp only [eventPairDuration, hsa] at hd
      exact Except.noConfusion hd
    | some a =>
      cases hsb : strptime ((e :: es).getLastD e).time with
      | none =>
        simp only [eventPairDuration, hsa, hsb] at hd
        exact Except.noConfusion hd
      | some b =>
        refine ⟨a, b, rfl, rfl, ?_⟩
        simp only [eventPairDuration, hsa, hsb] at hd
        have hd' : ((b : ℚ) - (a : ℚ)) / 1000000 = d := by
          injection hd
        rw [hst, ← hd']

theorem nodeLine_lineAt {byId : List (String × List CBEvent)} {cur : String}
    {lvl : Nat} {line : List TraceLine}
    (h : nodeLine byId cur lvl = .ok line) :
    line = (lineAt byId (cur, lvl)).toList := by
  cases hb : lookupD byId cur with
  | nil =>
    simp [nodeLine, hb] at h
    simp [lineAt, hb, ← h]
  | cons e es =>
    cases hst : _get_time_stats_from_event_pairs [e :: es] with
    | error pe => simp [nodeLine, hb, hst] at h
    | ok st =>
      obtain ⟨a, b, hsa, hsb, heq⟩ := stats_single_total e es st hst
      have hline : line = [⟨2 * lvl, e.eventType, st.total_secs⟩] := by
        simp [nodeLine, hb, hst] at h
        rw [← h]
      rw [hline]
      simp only [lineAt, hb, hsa, hsb]
      simp [heq]

theorem nodeLine_ne_fuelOut {byId : List (String × List CBEvent)}
    {cur : String} {lvl : Nat} {er : RenderErr}
    (h : nodeLine byId cur lvl = .error er) : er ≠ RenderErr.fuelOut := by
  cases hb : lookupD byId cur with
  | nil => simp [nodeLine, hb] at h
  | cons e es =>
    cases hst : _get_time_stats_from_event_pairs [e :: es] with
    | error pe =>
      simp [nodeLine, hb, hst] at h
      rw [← h]
      simp
    | ok st => simp [nodeLine, hb, hst] at h

theorem render_visit_aux (byId : List (String × List CBEvent))
    (tm : List (String × List String)) :
    ∀ fuel : Nat,
      (∀ cur lvl out, _print_trace_map byId tm fuel cur lvl = .ok out →
        ∃ vs, visitNodes tm fuel cur lvl = some vs ∧
          out = vs.filterMap (lineAt byId))
      ∧
      (∀ cs lvl outs, _print_trace_children byId tm fuel cs lvl = .ok outs →
        ∃ vss, visitChildren tm fuel cs lvl = some vss ∧
          outs = vss.map (fun vs => vs.filterMap (lineAt byId))) := by
  intro fuel
  induction fuel with
  | zero =>
    constructor
    · intro cur lvl out h
      simp [_print_trace_map] at h
    · intro cs lvl outs h
      cases cs with
      | nil =>
        simp [_print_trace_children] at h
        exact ⟨[], by simp [visitChildren], by simp [← h]⟩
      | cons c cs' =>
        simp [_print_trace_children, _print_trace_map] at h
  | succ n ihn =>
    have hP : ∀ cur lvl out,
        _print_trace_map byId tm (n + 1) cur lvl = .ok out →
        ∃ vs, visitNodes tm (n + 1) cur lvl = some vs ∧
          out = vs.filterMap (lineAt byId) := by
      intro cur lvl out h
      cases hline : nodeLine byId cur lvl with
      | error er => simp [_print_trace_map, hline] at h
      | ok line =>
        cases hch : _print_trace_children byId tm n (lookupD tm cur)
            (lvl + 1) with
        | error er => simp [_print_trace_map, hline, hch] at h
        | ok outs =>
          have hout : out = line ++ outs.flatten := by
            simp [_print_trace_map, hline, hch] at h
            rw [← h]
          obtain ⟨vss, hv, houts⟩ := ihn.2 (lookupD tm cur) (lvl + 1) outs hch
          refine ⟨(cur, lvl) :: vss.flatten, ?_, ?_⟩
          · simp [visitNodes, hv]
          · rw [hout, houts, nodeLine_lineAt hline, List.filterMap_cons]
            cases hl : lineAt byId (cur, lvl) <;>
              simp [hl, List.filterMap_flatten]
    have hQ : ∀ cs lvl outs,
        _print_trace_children byId tm (n + 1) cs lvl = .ok outs →
        ∃ vss, visitChildren tm (n + 1) cs lvl = some vss ∧
          outs = vss.map (fun vs => vs.filterMap (lineAt byId)) := by
      intro cs
      induction cs with
      | nil =>
        intro lvl outs h
        simp [_print_trace_children] at h
        exact ⟨[], by simp [visitChildren], by simp [← h]⟩
      | cons c cs' ihc =>
        intro lvl outs h
        cases hm : _print_trace_map byId tm (n + 1) c lvl with
        | error er => simp [_print_trace_children, hm] at h
        | ok out1 =>
          cases hrest : _print_trace_children byId tm (n + 1) cs' lvl with
          | error er => simp [_print_trace_children, hm, hrest] at h
          | ok outs' =>
            have houts : outs = out1 :: outs' := by
              simp [_print_trace_children, hm, hrest] at h
              rw [← h]
            obtain ⟨vs, hvs, hout1⟩ := hP c lvl out1 hm
            obtain ⟨vss, hvss, houts'⟩ := ihc lvl outs' hrest
            refine ⟨vs :: vss, ?_, ?_⟩
            · simp [visitChildren, hvs, hvss]
            · rw [houts, hout1, houts']
              simp
    exact ⟨hP, hQ⟩

/-- C8: whenever the render from the sentinel root succeeds, its output is
exactly the depth-first pre-order visit sequence of the trace map
(`visitNodes`: parent before children, children in stored order, two spaces
of indentation per level, a node without a trace-map entry ending the
recursion), filtered through `lineAt`: a node with a non-empty by-id group
emits one line with the group's event type and its total duration in
seconds, and a node with an empty group emits no line but its children are
still visited. -/
theorem trace_render_is_preorder_walk (byId : List (String × List CBEvent))
    (tm : List (String × List String)) (fuel : Nat) (out : List TraceLine)
    (h : _print_trace_map byId tm fuel BASE_TRACE_EVENT 1 = .ok out) :
    ∃ vs, visitNodes tm fuel BASE_TRACE_EVENT 1 = some vs ∧
      out = vs.filterMap (lineAt byId) :=
  (render_visit_aux byId tm fuel).1 BASE_TRACE_EVENT 1 out h

/-- C8 witness: the spec's render scenario in miniature — the sentinel root
has no by-id group (no line) but its child `"a"` is still visited and emits
one line of indentation 4 (level 2), type `"chain"`, duration 1 s; the
pre-order-walk characterisation applies to it. -/
theorem trace_render_is_preorder_walk_witness :
    _print_trace_map exRenderById exRenderTm 2 BASE_TRACE_EVENT 1 =
      .ok [{ indentWidth := 4, eventType := "chain", totalSecs := 1 }]
    ∧ ∃ vs, visitNodes exRenderTm 2 BASE_TRACE_EVENT 1 = some vs ∧
        [({ indentWidth := 4, eventType := "chain", totalSecs := 1 } :
          TraceLine)] = vs.filterMap (lineAt exRenderById) := by
  have h0 : strptime "0" = some 0 := by decide
  have h1m : strptime "1000000" = some 1000000 := by decide
  have hsta : _get_time_stats_from_event_pairs
      [[{ eventType := "chain", payload := none, id_ := "a", time := "0" },
        { eventType := "chain", payload := none, id_ := "a",
          time := "1000000" }]] =
      .ok { total_secs := 1, average_secs := 1, total_count := 1 } := by
    simp [_get_time_stats_from_event_pairs, exceptMap, eventPairDuration,
      h0, h1m, List.getLastD]
  have hlkA : lookupD exRenderById "a" =
      [{ eventType := "chain", payload := none, id_ := "a", time := "0" },
       { eventType := "chain", payload := none, id_ := "a",
         time := "1000000" }] := by decide
  have hlkRoot : lookupD exRenderById BASE_TRACE_EVENT = [] := by decide
  have htmRoot : lookupD exRenderTm BASE_TRACE_EVENT = ["a"] := by decide
  have htmA : lookupD exRenderTm "a" = [] := by decide
  have hnlRoot : nodeLine exRenderById BASE_TRACE_EVENT 1 = .ok [] := by
    simp [nodeLine, hlkRoot]
  have hnlA : nodeLine exRenderById "a" 2 = .ok
      [{ indentWidth := 4, eventType := "chain", totalSecs := 1 }] := by
    simp [nodeLine, hlkA, hsta]
  have hA : _print_trace_map exRenderById exRenderTm 1 "a" 2 = .ok
      [{ indentWidth := 4, eventType := "chain", totalSecs := 1 }] := by
    show _print_trace_map exRenderById exRenderTm (0 + 1) "a" 2 = _
    simp [_print_trace_map, _print_trace_children, hnlA, htmA]
  have hrender : _print_trace_map exRenderById exRenderTm 2 BASE_TRACE_EVENT 1
      = .ok [{ indentWidth := 4, eventType := "chain", totalSecs := 1 }] := by
    show _print_trace_map exRenderById exRenderTm (1 + 1) BASE_TRACE_EVENT 1
      = _
    simp [_print_trace_map, _print_trace_children, hnlRoot, htmRoot, hA]
  exact ⟨hrender,
    trace_render_is_preorder_walk exRenderById exRenderTm 2 _ hrender⟩

/-! ## C9: termination of the unguarded recursion on acyclic trace maps -/

theorem lookupD_subset_allChildren (tm : List (String × List String))
    (k : String) : lookupD tm k ⊆ allChildren tm := by
  induction tm with
  | nil => simp [lookupD]
  | cons h t ih =>
    obtain ⟨k', vs⟩ := h
    by_cases hk : k = k'
    · simp only [lookupD, if_pos hk, allChildren, List.map_cons,
        List.flatten_cons]
      exact List.subset_append_left vs _
    · simp only [lookupD, if_neg hk, allChildren, List.map_cons,
        List.flatten_cons]
      exact ih.trans (List.subset_append_right vs _)

theorem pathFrom_subset_allChildren (tm : List (String × List String))
    {x : String} {p : List String} (h : PathFrom tm x p) :
    ∀ y ∈ p, y ∈ allChildren tm := by
  induction h with
  | nil => intro y hy; cases hy
  | cons hc hp ihp =>
    intro y hy
    rcases List.mem_cons.mp hy with rfl | hy'
    · exact lookupD_subset_allChildren tm _ hc
    · exact ihp y hy'

theorem children_ne_fuelOut (byId : List (String × List CBEvent))
    (tm : List (String × List String)) (fuel : Nat) (cs : List String)
    (lvl : Nat)
    (h : ∀ c ∈ cs,
      _print_trace_map byId tm fuel c lvl ≠ .error RenderErr.fuelOut) :
    _print_trace_children byId tm fuel cs lvl ≠ .error RenderErr.fuelOut := by
  induction cs with
  | nil => simp [_print_trace_children]
  | cons c cs' ih =>
    intro hcon
    cases hm : _print_trace_map byId tm fuel c lvl with
    | error er =>
      simp [_print_trace_children, hm] at hcon
      exact h c (List.mem_cons_self c cs') (by rw [hm, hcon])
    | ok out =>
      cases hrest : _print_trace_children byId tm fuel cs' lvl with
      | error er =>
        simp [_print_trace_children, hm, hrest] at hcon
        exact ih (fun c' hc' => h c' (List.mem_cons_of_mem c hc'))
          (by rw [hrest, hcon])
      | ok outs => simp [_print_trace_children, hm, hrest] at hcon

theorem render_no_fuelOut (byId : List (String × List CBEvent))
    (tm : List (String × List String)) :
    ∀ (fuel : Nat) (cur : String) (lvl : Nat),
      (∀ p, PathFrom tm cur p → p.length < fuel) →
      _print_trace_map byId tm fuel cur lvl ≠ .error RenderErr.fuelOut := by
  intro fuel
  induction fuel with
  | zero =>
    intro cur lvl hp
    exact absurd (hp [] (PathFrom.nil cur)) (by simp)
  | succ n ih =>
    intro cur lvl hp hcon
    cases hline : nodeLine byId cur lvl with
    | error er =>
      simp [_print_trace_map, hline] at hcon
      exact nodeLine_ne_fuelOut hline (by rw [hcon])
    | ok line =>
      have hch : _print_trace_children byId tm n (lookupD tm cur) (lvl + 1) ≠
          .error RenderErr.fuelOut := by
        refine children_ne_fuelOut byId tm n _ _ fun c hc => ih c (lvl + 1) ?_
        intro p hpp
        have := hp (c :: p) (PathFrom.cons hc hpp)
        simpa using this
      cases hrest : _print_trace_children byId tm n (lookupD tm cur)
          (lvl + 1) with
      | error er =>
        simp [_print_trace_map, hline, hrest] at hcon
        exact hch (by rw [hrest, hcon])
      | ok outs => simp [_print_trace_map, hline, hrest] at hcon

/-- C9: for every by-id view and every finite trace map whose walk from the
sentinel root revisits no node (the subgraph reachable from the root is
acyclic), the recursive render terminates: some finite recursion depth —
one more than the number of child entries of the map suffices — completes
the walk without exhausting the fuel.  The recursion of the source is
unguarded, so this holds only under the acyclicity precondition. -/
theorem trace_render_terminates_on_acyclic
    (byId : List (String × List CBEvent)) (tm : List (String × List String))
    (hacyc : ∀ p, PathFrom tm BASE_TRACE_EVENT p →
      (BASE_TRACE_EVENT :: p).Nodup) :
    ∃ fuel, _print_trace_map byId tm fuel BASE_TRACE_EVENT 1 ≠
      .error RenderErr.fuelOut := by
  refine ⟨(allChildren tm).length + 1, ?_⟩
  apply render_no_fuelOut
  intro p hp
  have hnd : p.Nodup := (List.nodup_cons.mp (hacyc p hp)).2
  have hsub : p ⊆ allChildren tm :=
    fun y hy => pathFrom_subset_allChildren tm hp y hy
  have hle := (List.subperm_of_subset hnd hsub).length_le
  omega

/-- C9 witness: the concrete trace map `{root: [a]}` is acyclic from the
root, so the termination theorem applies to it. -/
theorem trace_render_terminates_on_acyclic_witness :
    ∃ fuel, _print_trace_map exRenderById exRenderTm fuel BASE_TRACE_EVENT 1 ≠
      .error RenderErr.fuelOut := by
  refine trace_render_terminates_on_acyclic exRenderById exRenderTm ?_
  intro p hp
  have htmRoot : lookupD exRenderTm BASE_TRACE_EVENT = ["a"] := by decide
  have htmA : lookupD exRenderTm "a" = [] := by decide
  cases hp with
  | nil => decide
  | cons hc hp' =>
    rw [htmRoot] at hc
    rcases List.mem_singleton.mp hc with rfl
    cases hp' with
    | nil => decide
    | cons hc2 hp'' =>
      rw [htmA] at hc2
      cases hc2

/-! ## C10: the session identifier -/

theorem toDigitsCore_length : ∀ (fuel n : Nat) (ds : List Char),
    0 < fuel → n < 10 ^ fuel →
    (Nat.toDigitsCore 10 fuel n ds).length = ds.length + Nat.log 10 n + 1 := by
  intro fuel
  induction fuel with
  | zero => intro n ds h _; omega
  | succ f ih =>
    intro n ds _ hn
    by_cases hz : n / 10 = 0
    · have hn10 : n < 10 := by omega
      have hlog : Nat.log 10 n = 0 :=
        Nat.log_eq_zero_iff.mpr (Or.inl hn10)
      simp [Nat.toDigitsCore, hz, hlog]
    · have hge : 10 ≤ n := by omega
      have hf : 0 < f := by
        rcases Nat.eq_zero_or_pos f with rfl | hf
        · simp at hn; omega
        · exact hf
      have hdiv : n / 10 < 10 ^ f := by
        rw [Nat.div_lt_iff_lt_mul (by norm_num)]
        calc n < 10 ^ (f + 1) := hn
          _ = 10 ^ f * 10 := by rw [Nat.pow_succ]
      have hlog : Nat.log 10 n = Nat.log 10 (n / 10) + 1 := by
        have h1 := Nat.log_div_base 10 n
        have h2 : 0 < Nat.log 10 n := Nat.log_pos (by norm_num) hge
        omega
      have := ih (n / 10) (Nat.digitChar (n % 10) :: ds) hf hdiv
      simp only [Nat.toDigitsCore, if_neg hz]
      rw [this, hlog]
      simp
      omega

theorem digitChar_isDigit (d : Nat) (h : d < 10) :
    (Nat.digitChar d).isDigit = true := by
  interval_cases d <;> decide

theorem toDigitsCore_digits : ∀ (fuel n : Nat) (ds : List Char),
    (∀ c ∈ ds, c.isDigit = true) →
    ∀ c ∈ Nat.toDigitsCore 10 fuel n ds, c.isDigit = true := by
  intro fuel
  induction fuel with
  | zero => intro n ds hds; simpa [Nat.toDigitsCore] using hds
  | succ f ih =>
    intro n ds hds
    have hd : (Nat.digitChar (n % 10)).isDigit = true :=
      digitChar_isDigit _ (Nat.mod_lt n (by norm_num))
    have hds' : ∀ c ∈ Nat.digitChar (n % 10) :: ds, c.isDigit = true := by
      intro c hc
      rcases List.mem_cons.mp hc with rfl | hc'
      · exact hd
      · exact hds c hc'
    by_cases hz : n / 10 = 0
    · simp only [Nat.toDigitsCore, if_pos hz]
      exact hds'
    · simp only [Nat.toDigitsCore, if_neg hz]
      exact ih (n / 10) _ hds'

theorem strOfNat_length (n : Nat) :
    (strOfNat n).length = Nat.log 10 n + 1 := by
  have h1 : 0 < n + 1 := Nat.succ_pos n
  have h2 : n < 10 ^ (n + 1) :=
    lt_of_lt_of_le (Nat.lt_pow_self (by norm_num) n)
      (Nat.pow_le_pow_right (by norm_num) (Nat.le_succ n))
  have := toDigitsCore_length (n + 1) n [] h1 h2
  simpa [strOfNat, Nat.toDigits] using this

theorem strOfNat_digits (n : Nat) : ∀ c ∈ strOfNat n, c.isDigit = true :=
  toDigitsCore_digits (n + 1) n [] (fun c hc => absurd hc (List.not_mem_nil c))

/-- C10: at any current time whose milliseconds-since-epoch value has 13
decimal digits (any present-day time), `set_experiment_id` returns exactly
the first 8 digits of that timestamp: the 13-digit decimal rendering of the
timestamp makes the `[:8]` truncation cut inside it, so the result has
length 8, consists only of decimal digits, and the 6-digit random component
never influences it. -/
theorem set_experiment_id_first8 (ts r : Nat)
    (h₁ : 10 ^ 12 ≤ ts) (h₂ : ts < 10 ^ 13) :
    set_experiment_id ts r = (strOfNat ts).take 8
    ∧ (set_experiment_id ts r).length = 8
    ∧ (∀ c ∈ set_experiment_id ts r, c.isDigit = true)
    ∧ (∀ r', set_experiment_id ts r' = set_experiment_id ts r) := by
  have hlen : (strOfNat ts).length = 13 := by
    rw [strOfNat_length, Nat.log_eq_of_pow_le_of_lt_pow h₁ h₂]
  have htake : ∀ r0 : Nat, set_experiment_id ts r0 = (strOfNat ts).take 8 := by
    intro r0
    unfold set_experiment_id
    exact List.take_append_of_le_length (by omega)
  refine ⟨htake r, ?_, ?_, fun r' => (htake r').trans (htake r).symm⟩
  · rw [htake r]
    simp [List.length_take, hlen]
  · intro c hc
    rw [htake r] at hc
    exact strOfNat_digits ts c (List.take_subset 8 _ hc)

/-- C10 witness: a concrete present-day millisecond timestamp (13 digits)
and a concrete 6-digit random part satisfy the hypotheses. -/
theorem set_experiment_id_first8_witness :
    set_experiment_id 1700000000000 123456 = (strOfNat 1700000000000).take 8
    ∧ (set_experiment_id 1700000000000 123456).length = 8
    ∧ (∀ c ∈ set_experiment_id 1700000000000 123456, c.isDigit = true)
    ∧ (∀ r', set_experiment_id 1700000000000 r' =
        set_experiment_id 1700000000000 123456) :=
  set_experiment_id_first8 1700000000000 123456 (by norm_num) (by norm_num)
